import Mathlib

/-!
Verification of the page-range resolution engine of `pdf-to-chapters`.

Strings are modelled as `List Char` (Python `str`).  Page numbers and offsets
are modelled as `Int` (Python `int`).  Each definition below is a shallow
embedding of the Python function of the same name; the regular expressions of
the source are compiled by hand into character-level matchers, with the
scanning/backtracking behaviour of Python `re` reproduced explicitly.
Python's `\s` / `str.strip()` whitespace and `\w` word characters are taken in
their ASCII extent.
-/

/-- Characters Python's `\s` matches (ASCII extent), also used by `str.strip()`. -/
def pyIsSpace (c : Char) : Bool :=
  c = ' ' || c = '\t' || c = '\n' || c = '\r' || c = '\x0b' || c = '\x0c'

/-- Characters Python's `\w` matches (ASCII extent): letters, digits, underscore. -/
def isWordChar (c : Char) : Bool :=
  c.isAlpha || c.isDigit || c = '_'

/-- Shorthand turning a string literal into the `List Char` the model works on. -/
def cs (s : String) : List Char := s.data

/-- Lowercase a whole string (Python `str.lower`, ASCII extent). -/
def lowerL (l : List Char) : List Char := l.map Char.toLower

/-- Does `l` start with `pat` (exact characters)? -/
def lStarts : List Char → List Char → Bool
  | _, [] => true
  | [], _ :: _ => false
  | c :: cst, p :: ps => c = p && lStarts cst ps

/-- Does `l` contain `pat` as a contiguous substring (Python `in` on `str`)? -/
def lContains : List Char → List Char → Bool
  | l, pat =>
    match l with
    | [] => lStarts [] pat
    | _ :: cst => lStarts l pat || lContains cst pat

/-- Python `str.lstrip()` over the ASCII whitespace set. -/
def lstripL (l : List Char) : List Char := l.dropWhile pyIsSpace

/-- Python `str.rstrip()` over the ASCII whitespace set. -/
def rstripL (l : List Char) : List Char := (l.reverse.dropWhile pyIsSpace).reverse

/-- Python `str.strip()` over the ASCII whitespace set. -/
def pyStrip (l : List Char) : List Char := rstripL (lstripL l)

/-- The characters removed by `sanitize_filename` (regex class `[<>:"/\\|?*]`). -/
def invalidChar (c : Char) : Bool :=
  c = '<' || c = '>' || c = ':' || c = '"' || c = '/' || c = '\\' ||
  c = '|' || c = '?' || c = '*'

/-- Embedding of `re.sub(r'\s+', ' ', s)`: every maximal whitespace run becomes one
space.  The `inRun` flag records whether the scanner is inside a run whose
replacement space has already been emitted. -/
def collapseAux : Bool → List Char → List Char
  | _, [] => []
  | inRun, c :: cst =>
    if pyIsSpace c then
      if inRun then collapseAux true cst else ' ' :: collapseAux true cst
    else c :: collapseAux false cst

/-- Replacement of whitespace runs by single spaces (`re.sub(r'\s+', ' ', s)`). -/
def collapseWs (l : List Char) : List Char := collapseAux false l

/-- Final truncation step of `sanitize_filename`:
`sanitized[:100] if len(sanitized) > 100 else sanitized`. -/
def truncate100 (l : List Char) : List Char :=
  if 100 < l.length then l.take 100 else l

/-- Embedding of `utils.sanitize_filename`: drop the invalid characters, collapse
whitespace runs to single spaces, strip, and truncate to 100 characters. -/
def sanitize_filename (name : List Char) : List Char :=
  truncate100 (pyStrip (collapseWs (name.filter (fun c => !invalidChar c))))

/-- Is there a word character just before the current scan position (`\b` context)? -/
def wordBefore : Option Char → Bool
  | none => false
  | some c => isWordChar c

/-- Does a `\b` hold between the end of a match and the rest of the input? -/
def boundaryNext : List Char → Bool
  | [] => true
  | c :: _ => !isWordChar c

/-- One attempted match of `\b\d+\.\d+(?:\.\d+)?\b` at the current position, given
the character before the position.  `some j` means the match consumed `j + 1`
characters.  The greedy optional third component backtracks to the two-component
form when its trailing `\b` fails (the character after the second digit run is
then `'.'`, which is not a word character, so the shorter `\b` always holds). -/
def matchSection (prev : Option Char) (l : List Char) : Option Nat :=
  if wordBefore prev then none
  else
    let d1 := l.takeWhile Char.isDigit
    let r1 := l.dropWhile Char.isDigit
    if d1.isEmpty then none
    else
      match r1 with
      | '.' :: r2 =>
        let d2 := r2.takeWhile Char.isDigit
        let r3 := r2.dropWhile Char.isDigit
        if d2.isEmpty then none
        else
          match r3 with
          | '.' :: r4 =>
            let d3 := r4.takeWhile Char.isDigit
            let r5 := r4.dropWhile Char.isDigit
            if !d3.isEmpty && boundaryNext r5 then
              some (d1.length + d2.length + d3.length + 2)
            else some (d1.length + d2.length)
          | _ => if boundaryNext r3 then some (d1.length + d2.length) else none
      | _ => none

/-- Scanner for `re.findall` of the section pattern: non-overlapping matches,
advancing one character on failure.  `fuel` bounds the recursion by the input
length so that the definition is structurally recursive. -/
def sectionCountAux : Nat → Option Char → List Char → Nat
  | 0, _, _ => 0
  | _, _, [] => 0
  | fuel + 1, prev, c :: cst =>
    match matchSection prev (c :: cst) with
    | some j => 1 + sectionCountAux fuel (some ((c :: cst).getD j ' ')) (cst.drop j)
    | none => sectionCountAux fuel (some c) cst

/-- Count of matches of `section_pattern = \b\d+\.\d+(?:\.\d+)?\b` in a page text
(`len(section_pattern.findall(text))` in `extract_toc_text`). -/
def sectionCount (text : List Char) : Nat := sectionCountAux text.length none text

/-- The `(?:\s|$|\n)` tail of the page-number pattern; `some e` means `e`
characters were consumed (1 for a whitespace character, 0 at end of input). -/
def pnEnd : List Char → Option Nat
  | [] => some 0
  | c :: _ => if pyIsSpace c then some 1 else none

/-- Try to match exactly `t` digits of `\d{1,3}` followed by the pattern tail,
starting right after the leading whitespace character. -/
def pnTry (cst : List Char) (t : Nat) : Option Nat :=
  let ds := cst.take t
  if ds.length = t && ds.all Char.isDigit then
    match pnEnd (cst.drop t) with
    | some e => some (t + e)
    | none => none
  else none

/-- One attempted match of `page_num_pattern = \s\d{1,3}(?:\s|$|\n)` at the
current position; the greedy `\d{1,3}` backtracks from three digits down to one.
`some j` means the match consumed `j + 1` characters. -/
def matchPageNum : List Char → Option Nat
  | [] => none
  | c :: cst =>
    if pyIsSpace c then
      match pnTry cst 3 with
      | some k => some k
      | none =>
        match pnTry cst 2 with
        | some k => some k
        | none => pnTry cst 1
    else none

/-- Scanner for `re.findall` of the page-number pattern (non-overlapping). -/
def pageNumCountAux : Nat → List Char → Nat
  | 0, _ => 0
  | _, [] => 0
  | fuel + 1, c :: cst =>
    match matchPageNum (c :: cst) with
    | some j => 1 + pageNumCountAux fuel (cst.drop j)
    | none => pageNumCountAux fuel cst

/-- Count of matches of `page_num_pattern` in a page text. -/
def pageNumCount (text : List Char) : Nat := pageNumCountAux text.length text

/-- The fixed keyword list `toc_keywords` of `extract_toc_text`. -/
def tocKeywords : List (List Char) :=
  [cs "chapter", cs "preface", cs "introduction", cs "appendix", cs "index",
   cs "exercises"]

/-- Embedding of `sum(1 for kw in toc_keywords if kw in text_lower)`. -/
def keywordCount (textLower : List Char) : Nat :=
  (tocKeywords.filter (fun kw => lContains textLower kw)).length

/-- Embedding of `has_contents_header`: the lowercased page text contains
`contents` or `table of contents`. -/
def hasContentsHeader (textLower : List Char) : Bool :=
  lContains textLower (cs "contents") || lContains textLower (cs "table of contents")

/-- Embedding of `has_toc_pattern`, the heuristic disjunction of
`extract_toc_text`. -/
def hasTocPattern (text : List Char) : Bool :=
  (decide (3 ≤ sectionCount text) && decide (5 ≤ pageNumCount text)) ||
  (decide (2 ≤ keywordCount (lowerL text)) && decide (5 ≤ pageNumCount text)) ||
  decide (5 ≤ sectionCount text)

/-- The full TOC-page classification of `extract_toc_text`:
`has_contents_header or has_toc_pattern`. -/
def isTocPage (text : List Char) : Bool :=
  hasContentsHeader (lowerL text) || hasTocPattern text

/-- The weaker continuation test `still_toc` used once the TOC has started. -/
def stillToc (text : List Char) : Bool :=
  decide (2 ≤ sectionCount text) || decide (3 ≤ pageNumCount text)

/-- Decimal digits of a positive number, with fuel for structural recursion. -/
def natCharsAux : Nat → Nat → List Char
  | 0, _ => []
  | _ + 1, 0 => []
  | f + 1, n + 1 => natCharsAux f ((n + 1) / 10) ++ [Char.ofNat (48 + (n + 1) % 10)]

/-- Decimal representation of a natural number (Python `str(n)` for `n ≥ 0`). -/
def natChars (n : Nat) : List Char := if n = 0 then ['0'] else natCharsAux n n

/-- The page entry appended to `toc_text`:
the f-string `=== PDF Page {i + 1} ===` followed by a newline and the page text. -/
def mkPageEntry (i : Nat) (text : List Char) : List Char :=
  cs "=== PDF Page " ++ natChars (i + 1) ++ cs " ===" ++ ['\n'] ++ text

/-- The scanning loop of `extract_toc_text`: `st` is `toc_start_page`, `acc` is
the list `toc_text` of collected page entries; a `break` returns the pair. -/
def tocGo (pages : List (List Char)) :
    List Nat → Option Nat → List (List Char) → List (List Char) × Option Nat
  | [], st, acc => (acc, st)
  | i :: rest, st, acc =>
    let text := pages.getD i []
    if isTocPage text then
      tocGo pages rest (match st with | none => some (i + 1) | some s => some s)
        (acc ++ [mkPageEntry i text])
    else
      match st with
      | none => tocGo pages rest none acc
      | some s =>
        if stillToc text || decide (acc.length < 3) then
          if decide (acc.length < 15) then
            tocGo pages rest (some s) (acc ++ [mkPageEntry i text])
          else (acc, some s)
        else (acc, some s)

/-- The list `toc_text` of page entries collected by `extract_toc_text`
(before the final `"\n\n".join`). -/
def collectedEntries (pages : List (List Char)) (max_pages : Nat) : List (List Char) :=
  (tocGo pages (List.range (min max_pages pages.length)) none []).1

/-- Embedding of `toc_utils.extract_toc_text` (default `max_pages = 20`):
returns the joined TOC text and the 1-indexed start page (`toc_start_page or 1`). -/
def extract_toc_text (pages : List (List Char)) (max_pages : Nat) : List Char × Nat :=
  let r := tocGo pages (List.range (min max_pages pages.length)) none []
  (List.intercalate (cs "\n\n") r.1, r.2.getD 1)

/-- Case-insensitive version of `lStarts` (both sides lowercased). -/
def lStartsCI : List Char → List Char → Bool
  | _, [] => true
  | [], _ :: _ => false
  | c :: cst, p :: ps => (c.toLower = p.toLower) && lStartsCI cst ps

/-- Generic `re.search` scanner: try the matcher at every position. -/
def searchBy (p : List Char → Bool) : List Char → Bool
  | [] => p []
  | c :: cst => p (c :: cst) || searchBy p cst

/-- Scanner that also tracks the previous character, for patterns whose first
token is a `\b`. -/
def searchPrevBy (p : Option Char → List Char → Bool) : Option Char → List Char → Bool
  | prev, [] => p prev []
  | prev, c :: cst => p prev (c :: cst) || searchPrevBy p (some c) cst

/-- Embedding of `re.match(r'^(\d+)\s+', chapter_title)`: the leading digit run
when it is followed by at least one whitespace character. -/
def leadingNum (title : List Char) : Option (List Char) :=
  let ds := title.takeWhile Char.isDigit
  let r := title.dropWhile Char.isDigit
  if ds.isEmpty then none
  else
    match r with
    | c :: _ => if pyIsSpace c then some ds else none
    | [] => none

/-- Embedding of
`re.sub(r'^(chapter\s*)?\d*\.?\s*', '', chapter_title, flags=re.IGNORECASE).strip()`:
all parts of the pattern are optional and greedy, so the longest such leading
run is removed, then the remainder is stripped. -/
def cleanTitle (title : List Char) : List Char :=
  let t1 := if lStartsCI title (cs "chapter") then
              (title.drop 7).dropWhile pyIsSpace
            else title
  let t2 := t1.dropWhile Char.isDigit
  let t3 := match t2 with
            | '.' :: r => r
            | _ => t2
  pyStrip (t3.dropWhile pyIsSpace)

/-- Python `str.split('\n')`: split on each newline, keeping empty pieces. -/
def splitNl : List Char → List (List Char)
  | [] => [[]]
  | c :: cst =>
    if c = '\n' then [] :: splitNl cst
    else
      match splitNl cst with
      | [] => [[c]]
      | p :: ps => (c :: p) :: ps

/-- Python `str.split()` (no argument): whitespace-run separated words, no
empties.  `fuel` bounds the recursion by the input length. -/
def pySplitAux : Nat → List Char → List (List Char)
  | 0, _ => []
  | f + 1, l =>
    match l.dropWhile pyIsSpace with
    | [] => []
    | c :: cst =>
      ((c :: cst).takeWhile (fun d => !pyIsSpace d)) ::
        pySplitAux f ((c :: cst).dropWhile (fun d => !pyIsSpace d))

/-- Python `str.split()` on a whole string. -/
def pySplit (l : List Char) : List (List Char) := pySplitAux l.length l

/-- Match the escaped title words joined by `\s+` (case-insensitive) at the
current position (`title_pattern` of `find_chapter_start_page`). -/
def wordsMatchAt : List (List Char) → List Char → Bool
  | [], _ => true
  | w :: ws, s =>
    if lStartsCI s w then
      match ws with
      | [] => true
      | _ :: _ =>
        let r := s.drop w.length
        !(r.takeWhile pyIsSpace).isEmpty && wordsMatchAt ws (r.dropWhile pyIsSpace)
    else false

/-- Case-insensitive search for words separated by `\s+`. -/
def searchWordsCI (ws : List (List Char)) (s : List Char) : Bool :=
  searchBy (wordsMatchAt ws) s

/-- Match of `^Chapter\s+{num}\b` (case-insensitive) at the start of a block. -/
def chapterNumAt (num : List Char) (s : List Char) : Bool :=
  lStartsCI s (cs "chapter") &&
  (let r := s.drop 7
   !(r.takeWhile pyIsSpace).isEmpty &&
   (let r2 := r.dropWhile pyIsSpace
    lStarts r2 num && boundaryNext (r2.drop num.length)))

/-- Match of `figure\s+\d` (case-insensitive) at the current position. -/
def figDigitAt (s : List Char) : Bool :=
  lStartsCI s (cs "figure") &&
  (let r := s.drop 6
   !(r.takeWhile pyIsSpace).isEmpty &&
   (match r.dropWhile pyIsSpace with
    | c :: _ => c.isDigit
    | [] => false))

/-- Search for `chapter\s+outline|learning\s+outcome|introduction`
(case-insensitive), the marker guard of Method 2. -/
def hasChapterMarker2 (s : List Char) : Bool :=
  searchWordsCI [cs "chapter", cs "outline"] s ||
  searchWordsCI [cs "learning", cs "outcome"] s ||
  lContains (lowerL s) (cs "introduction")

/-- Search for `chapter\s+outline|figure\s+\d|learning` (case-insensitive), the
marker guard of Method 3. -/
def hasChapterMarker3 (s : List Char) : Bool :=
  searchWordsCI [cs "chapter", cs "outline"] s ||
  searchBy figDigitAt s ||
  lContains (lowerL s) (cs "learning")

/-- The inspected block of a page in `find_chapter_start_page`:
`text[:800].strip()`. -/
def fbOf800 (text : List Char) : List Char := pyStrip (text.take 800)

/-- Does one page qualify for `find_chapter_start_page`?  The three detection
methods of the source, combined; the function returns on the first page where
any of them fires, so only the disjunction matters. -/
def pageQualifies (chapter_title : List Char) (text : List Char) : Bool :=
  let fb := fbOf800 text
  let ct := cleanTitle chapter_title
  let tws := (pySplit ct).take 4
  (match leadingNum chapter_title with
   | some num =>
     chapterNumAt num fb ||
     (let lines := splitNl fb
      decide (2 ≤ lines.length) &&
      (decide (pyStrip (lines.headD []) = cs "Chapter " ++ num) ||
       decide (pyStrip (lines.headD []) = num)))
   | none => false) ||
  (!tws.isEmpty && searchWordsCI tws fb && hasChapterMarker2 fb) ||
  (decide (10 < ct.length) && lContains (lowerL (fb.take 500)) (lowerL (ct.take 40)) &&
   hasChapterMarker3 fb)

/-- The scanning loop of `find_chapter_start_page`: first index whose page
qualifies, reported 1-indexed. -/
def fcspGo (pq : Nat → Bool) : List Nat → Option Nat
  | [] => none
  | i :: rest => if pq i then some (i + 1) else fcspGo pq rest

/-- Embedding of `toc_utils.find_chapter_start_page` (default window `(10, 100)`):
scan physical pages `range(start - 1, min(end, page_count))`. -/
def find_chapter_start_page (pages : List (List Char)) (chapter_title : List Char)
    (rstart rend : Nat) : Option Nat :=
  fcspGo (fun i => pageQualifies chapter_title (pages.getD i []))
    ((List.range (min rend pages.length)).drop (rstart - 1))

/-- A TOC entry produced by the external AI parser: a title and the page number
printed in the book. -/
structure TocEntry where
  title : List Char
  toc_page : Int
deriving DecidableEq, Repr

/-- A PDF bookmark: hierarchy level, title, physical 1-indexed page. -/
structure Bookmark where
  level : Int
  title : List Char
  page : Int
deriving DecidableEq, Repr

/-- A resolved chapter range (physical 1-indexed pages). -/
structure ChapterRange where
  title : List Char
  start_page : Int
  end_page : Int
deriving DecidableEq, Repr

/-- The inspected block of a page in `calculate_page_offset`:
`text[:1000].strip()`. -/
def fbOf1000 (text : List Char) : List Char := pyStrip (text.take 1000)

/-- Match of `Figure\s+{num}\.1\b` (case-sensitive) at the current position. -/
def figureN1At (num : List Char) (s : List Char) : Bool :=
  lStarts s (cs "Figure") &&
  (let r := s.drop 6
   !(r.takeWhile pyIsSpace).isEmpty &&
   (let r2 := r.dropWhile pyIsSpace
    lStarts r2 num &&
    (match r2.drop num.length with
     | '.' :: '1' :: rest => boundaryNext rest
     | _ => false)))

/-- Match of `\b{num}\.1\s+\w` at the current position, given the previous
character for the leading `\b`. -/
def n1WordAt (num : List Char) (prev : Option Char) (s : List Char) : Bool :=
  !wordBefore prev &&
  lStarts s num &&
  (match s.drop num.length with
   | '.' :: '1' :: r =>
     !(r.takeWhile pyIsSpace).isEmpty &&
     (match r.dropWhile pyIsSpace with
      | c :: _ => isWordChar c
      | [] => false)
   | _ => false)

/-- Search for `Chapter\s+Outline` (case-insensitive). -/
def chapterOutlineSearch (s : List Char) : Bool :=
  searchWordsCI [cs "chapter", cs "outline"] s

/-- Do any of the three chapter signals of `calculate_page_offset` fire on a
page for chapter number `n`?  All three record the same offset
`page_idx + 1 - toc_page` and break, so only the disjunction matters:
Method 1 is `Figure {n}.1` together with `Chapter Outline`, Method 2 is the
block beginning with `Chapter {n}` or `{n}`, Method 3 is `Chapter Outline`
together with `{n}.1 <word>`. -/
def pageSignals (n : Nat) (text : List Char) : Bool :=
  let fb := fbOf1000 text
  let num := natChars n
  (searchBy (figureN1At num) fb && chapterOutlineSearch fb) ||
  (chapterNumAt num fb || (lStarts fb num && boundaryNext (fb.drop num.length))) ||
  (chapterOutlineSearch fb && searchPrevBy (n1WordAt num) none fb)

/-- The scanned physical page indices for one TOC entry:
`range(max(10, toc_page) - 1, min(toc_page + 50, page_count))` (0-indexed). -/
def searchIdxs (toc_page : Int) (pageCount : Nat) : List Nat :=
  let sstart : Int := max 10 toc_page
  let send : Int := min (toc_page + 50) (pageCount : Int)
  (List.range send.toNat).drop (sstart - 1).toNat

/-- The offset recorded for the `idx`-th TOC entry (chapter number `idx + 1`):
the first scanned page where a signal fires yields
`offset = actual_page - toc_page`. -/
def findOffsetFor (pages : List (List Char)) (n : Nat) (e : TocEntry) : Option Int :=
  (searchIdxs e.toc_page pages.length).findSome? (fun i =>
    if pageSignals n (pages.getD i []) then some ((i : Int) + 1 - e.toc_page) else none)

/-- The list `offsets_found` of `calculate_page_offset`: one offset per entry of
`toc_chapters[:5]` whose chapter was located. -/
def offsetsFound (pages : List (List Char)) (toc : List TocEntry) : List Int :=
  (toc.take 5).enum.filterMap (fun p => findOffsetFor pages (p.1 + 1) p.2)

/-- Number of occurrences of a value in a list (a `Counter` entry). -/
def countIn (l : List Int) (x : Int) : Nat := (l.filter (fun y => y = x)).length

/-- The keys of `Counter(l)` in first-occurrence order, with fuel for structural
recursion. -/
def firstKeysAux : Nat → List Int → List Int
  | 0, _ => []
  | f + 1, l =>
    match l with
    | [] => []
    | x :: xs => x :: firstKeysAux f (xs.filter (fun y => y ≠ x))

/-- The keys of `Counter(l)` in first-occurrence order. -/
def firstKeys (l : List Int) : List Int := firstKeysAux l.length l

/-- Left fold selecting the key with the strictly largest count; on ties the
earlier key is kept (`max` over the insertion-ordered `Counter` items). -/
def bestOf (l : List Int) : Int → List Int → Int
  | b, [] => b
  | b, k :: ks => bestOf l (if countIn l k > countIn l b then k else b) ks

/-- Embedding of `Counter(l).most_common(1)[0][0]`: the most frequent value of
`l`, ties broken by first occurrence (only used on non-empty `l`). -/
def pyMode (l : List Int) : Int :=
  match firstKeys l with
  | [] => 0
  | k :: ks => bestOf l k ks

/-- Embedding of `toc_utils.calculate_page_offset`: `0` for an empty entry list,
otherwise the mode of the recorded offsets, or the fallback `16` when none were
recorded. -/
def calculate_page_offset (pages : List (List Char)) (toc : List TocEntry) : Int :=
  if toc = [] then 0
  else
    let l := offsetsFound pages toc
    if l = [] then 16 else pyMode l

/-- The `title_to_bookmark` lookup of `get_chapter_page_ranges`: a dict built in
document order whose first insertion wins, i.e. the first bookmark carrying the
title. -/
def lookupBm (bookmarks : List Bookmark) (t : List Char) : Option Bookmark :=
  bookmarks.find? (fun b => b.title = t)

/-- The per-title loop of `get_chapter_page_ranges`; at each step the remaining
titles are scanned for the next one present in the lookup. -/
def gcprGo (bookmarks : List Bookmark) (total_pages : Int) :
    List (List Char) → List ChapterRange
  | [] => []
  | t :: rest =>
    match lookupBm bookmarks t with
    | none => gcprGo bookmarks total_pages rest
    | some bm =>
      let s := bm.page
      let e := (rest.findSome? (fun nt => (lookupBm bookmarks nt).map (fun b => b.page - 1))).getD
        total_pages
      (if 0 < s ∧ s ≤ e then [⟨t, s, e⟩] else []) ++ gcprGo bookmarks total_pages rest

/-- Embedding of `pdf_utils.get_chapter_page_ranges`. -/
def get_chapter_page_ranges (bookmarks : List Bookmark) (chapter_titles : List (List Char))
    (total_pages : Int) : List ChapterRange :=
  gcprGo bookmarks total_pages chapter_titles

/-- Embedding of `toc_utils.convert_toc_to_chapter_ranges`: each entry becomes
`[toc_page + offset, next.toc_page + offset - 1]` (last entry: `total_pages`),
kept only when `0 < start ∧ start ≤ end ∧ end ≤ total_pages`. -/
def convert_toc_to_chapter_ranges (offset total_pages : Int) :
    List TocEntry → List ChapterRange
  | [] => []
  | ch :: rest =>
    let s := ch.toc_page + offset
    let e := match rest with
             | next :: _ => next.toc_page + offset - 1
             | [] => total_pages
    (if 0 < s ∧ s ≤ e ∧ e ≤ total_pages then [⟨ch.title, s, e⟩] else []) ++
      convert_toc_to_chapter_ranges offset total_pages rest

/-- The pages of the selected titles that resolve through the bookmark lookup,
in selection order (used to state the "presented in chapter order" hypothesis). -/
def resolvedPages (bms : List Bookmark) (titles : List (List Char)) : List Int :=
  titles.filterMap (fun t => (lookupBm bms t).map (fun b => b.page))

theorem sanity_sanitize_example :
    sanitize_filename (cs "  a<b>:  c  ") = cs "ab c" := by
  decide

theorem sanity_section_count :
    sectionCount (cs "1.1 2.2 3.3 4.4 5.5 6.6") = 6 := by decide

theorem sanity_page_num_count :
    pageNumCount (cs "Intro 5\nNext 12 ") = 2 ∧ pageNumCount (cs "1.1 2.2") = 0 := by
  decide

theorem sanity_toc_page :
    isTocPage (cs "Table of Contents") = true ∧ isTocPage (cs "nothing here 1.2") = false := by
  decide

theorem sanity_extract :
    (extract_toc_text [cs "blank page", cs "Table of Contents\nChapter 1 ... 3"] 20).2 = 2 := by
  decide

theorem convert_mem_valid (offset total : Int) :
    ∀ toc : List TocEntry, ∀ r ∈ convert_toc_to_chapter_ranges offset total toc,
      1 ≤ r.start_page ∧ r.start_page ≤ r.end_page ∧ r.end_page ≤ total := by
  intro toc
  induction toc with
  | nil => intro r hr; simp [convert_toc_to_chapter_ranges] at hr
  | cons ch rest ih =>
    intro r hr
    simp only [convert_toc_to_chapter_ranges, List.mem_append] at hr
    rcases hr with hr | hr
    · split at hr
      · next hcond =>
          simp only [List.mem_singleton] at hr
          subst hr
          simp only []
          omega
      · simp at hr
    · exact ih r hr

theorem gcpr_mem_se (bms : List Bookmark) (total : Int) :
    ∀ titles : List (List Char), ∀ r ∈ gcprGo bms total titles,
      1 ≤ r.start_page ∧ r.start_page ≤ r.end_page := by
  intro titles
  induction titles with
  | nil => intro r hr; simp [gcprGo] at hr
  | cons t rest ih =>
    intro r hr
    simp only [gcprGo] at hr
    rcases hlk : lookupBm bms t with _ | bm
    · rw [hlk] at hr; exact ih r hr
    · rw [hlk] at hr
      simp only [List.mem_append] at hr
      rcases hr with hr | hr
      · split at hr
        · next hcond =>
            simp only [List.mem_singleton] at hr
            subst hr
            simp only []
            omega
        · simp at hr
      · exact ih r hr

theorem gcpr_mem_end_le (bms : List Bookmark) (total : Int)
    (hb : ∀ b ∈ bms, b.page ≤ total) :
    ∀ titles : List (List Char), ∀ r ∈ gcprGo bms total titles,
      r.end_page ≤ total := by
  intro titles
  induction titles with
  | nil => intro r hr; simp [gcprGo] at hr
  | cons t rest ih =>
    intro r hr
    simp only [gcprGo] at hr
    rcases hlk : lookupBm bms t with _ | bm
    · rw [hlk] at hr; exact ih r hr
    · rw [hlk] at hr
      simp only [List.mem_append] at hr
      rcases hr with hr | hr
      · split at hr
        · next hcond =>
            simp only [List.mem_singleton] at hr
            subst hr
            simp only []
            rcases hfs : (rest.findSome? fun nt =>
                (lookupBm bms nt).map fun b => b.page - 1) with _ | v
            · simp [hfs]
            · simp only [hfs, Option.getD_some]
              obtain ⟨nt, _, hnt⟩ := List.exists_of_findSome?_eq_some hfs
              rcases hlk2 : lookupBm bms nt with _ | b2
              · rw [hlk2] at hnt; simp at hnt
              · rw [hlk2] at hnt
                simp at hnt
                have hmem : b2 ∈ bms := List.mem_of_find?_eq_some hlk2
                have := hb b2 hmem
                omega
        · simp at hr
      · exact ih r hr

/-- C1: every range emitted by `convert_toc_to_chapter_ranges` satisfies
`1 ≤ start_page ≤ end_page ≤ total_pages`; for `get_chapter_page_ranges` the
bounds `1 ≤ start_page ≤ end_page` always hold, and `end_page ≤ total_pages`
holds provided every bookmark's page is at most `total_pages` (the amendment:
the bookmark builder does not itself check `end_page ≤ total_pages`). -/
theorem c1_range_bounds :
    (∀ (offset total : Int) (toc : List TocEntry),
      ∀ r ∈ convert_toc_to_chapter_ranges offset total toc,
        1 ≤ r.start_page ∧ r.start_page ≤ r.end_page ∧ r.end_page ≤ total) ∧
    (∀ (bms : List Bookmark) (titles : List (List Char)) (total : Int),
      (∀ b ∈ bms, b.page ≤ total) →
      ∀ r ∈ get_chapter_page_ranges bms titles total,
        1 ≤ r.start_page ∧ r.start_page ≤ r.end_page ∧ r.end_page ≤ total) := by
  refine ⟨fun offset total toc => convert_mem_valid offset total toc,
          fun bms titles total hb r hr => ?_⟩
  have h1 := gcpr_mem_se bms total titles r hr
  have h2 := gcpr_mem_end_le bms total hb titles r hr
  exact ⟨h1.1, h1.2, h2⟩

/-- C1 counterexample: with a bookmark whose page exceeds `total_pages`,
`get_chapter_page_ranges` emits a range whose `end_page` exceeds `total_pages`,
so the claimed invariant `end_page ≤ total_pages` fails for the bookmark
builder. -/
theorem c1_counterexample :
    (⟨cs "A", 5, 49⟩ : ChapterRange) ∈
      get_chapter_page_ranges [⟨1, cs "A", 5⟩, ⟨1, cs "B", 50⟩] [cs "A", cs "B"] 20 ∧
    ¬ ((49 : Int) ≤ 20) := by
  decide

/-- C1 witness: the amended invariant applied to a concrete bookmark table. -/
theorem c1_witness :
    1 ≤ (⟨cs "A", 1, 9⟩ : ChapterRange).start_page ∧
    (⟨cs "A", 1, 9⟩ : ChapterRange).start_page ≤ (⟨cs "A", 1, 9⟩ : ChapterRange).end_page ∧
    (⟨cs "A", 1, 9⟩ : ChapterRange).end_page ≤ 20 :=
  c1_range_bounds.2 [⟨1, cs "A", 1⟩, ⟨1, cs "B", 10⟩] [cs "A", cs "B"] 20
    (by decide) ⟨cs "A", 1, 9⟩ (by decide)

/-- C8: the bookmark range builder on bookmarks A(page 1), B(page 10) with
`total_pages = 20` and selected titles A, B yields exactly
`[(A, 1, 9), (B, 10, 20)]`. -/
theorem c8_bookmark_ranges_example :
    get_chapter_page_ranges [⟨1, cs "A", 1⟩, ⟨1, cs "B", 10⟩] [cs "A", cs "B"] 20 =
      [⟨cs "A", 1, 9⟩, ⟨cs "B", 10, 20⟩] := by
  decide

/-- C9: the TOC range builder on entries ("1 Intro", 1), ("2 Methods", 20) with
`offset = 16` and `total_pages = 60` yields exactly
`[("1 Intro", 17, 35), ("2 Methods", 36, 60)]`. -/
theorem c9_toc_ranges_example :
    convert_toc_to_chapter_ranges 16 60 [⟨cs "1 Intro", 1⟩, ⟨cs "2 Methods", 20⟩] =
      [⟨cs "1 Intro", 17, 35⟩, ⟨cs "2 Methods", 36, 60⟩] := by
  decide

theorem convert_start_lb (offset total : Int) :
    ∀ (rest : List TocEntry) (ch : TocEntry),
      (ch :: rest).Chain' (fun a b => a.toc_page < b.toc_page) →
      ∀ r ∈ convert_toc_to_chapter_ranges offset total (ch :: rest),
        ch.toc_page + offset ≤ r.start_page := by
  intro rest
  induction rest with
  | nil =>
    intro ch _ r hr
    simp only [convert_toc_to_chapter_ranges, List.append_nil] at hr
    split at hr
    · simp only [List.mem_singleton] at hr; subst hr; simp
    · simp at hr
  | cons ch2 rest2 ih =>
    intro ch hch r hr
    have hr2 : r ∈ (if 0 < ch.toc_page + offset ∧
          ch.toc_page + offset ≤ ch2.toc_page + offset - 1 ∧
          ch2.toc_page + offset - 1 ≤ total
        then [(⟨ch.title, ch.toc_page + offset, ch2.toc_page + offset - 1⟩ : ChapterRange)]
        else []) ++ convert_toc_to_chapter_ranges offset total (ch2 :: rest2) := hr
    rw [List.mem_append] at hr2
    rcases hr2 with hr2 | hr2
    · split at hr2
      · simp only [List.mem_singleton] at hr2; subst hr2; simp
      · simp at hr2
    · have h2 := ih ch2 hch.tail r hr2
      have hlt : ch.toc_page < ch2.toc_page := (List.chain'_cons'.mp hch).1 ch2 rfl
      omega

theorem convert_pairwise (offset total : Int) :
    ∀ toc : List TocEntry,
      toc.Chain' (fun a b => a.toc_page < b.toc_page) →
      (convert_toc_to_chapter_ranges offset total toc).Pairwise
        (fun a b => a.end_page < b.start_page) := by
  intro toc
  induction toc with
  | nil => intro _; simp [convert_toc_to_chapter_ranges]
  | cons ch rest ih =>
    intro hch
    simp only [convert_toc_to_chapter_ranges]
    rw [List.pairwise_append]
    refine ⟨?_, ih hch.tail, ?_⟩
    · split
      · simp
      · simp
    · intro a ha b hb
      split at ha
      · simp only [List.mem_singleton] at ha
        subst ha
        cases rest with
        | nil => simp [convert_toc_to_chapter_ranges] at hb
        | cons ch2 rest2 =>
          have hlb := convert_start_lb offset total rest2 ch2 hch.tail b hb
          simp only []
          omega
      · simp at ha

theorem convert_titles_sublist (offset total : Int) :
    ∀ toc : List TocEntry,
      ((convert_toc_to_chapter_ranges offset total toc).map (fun r => r.title)).Sublist
        (toc.map (fun e => e.title)) := by
  intro toc
  induction toc with
  | nil => simp [convert_toc_to_chapter_ranges]
  | cons ch rest ih =>
    simp only [convert_toc_to_chapter_ranges, List.map_append]
    split
    · simpa using List.Sublist.cons_cons ch.title ih
    · simpa using List.Sublist.cons ch.title ih

theorem findSome_end_eq (bms : List Bookmark) :
    ∀ titles : List (List Char),
      (titles.findSome? (fun nt => (lookupBm bms nt).map (fun b => b.page - 1))) =
        (resolvedPages bms titles).head?.map (fun p => p - 1) := by
  intro titles
  induction titles with
  | nil => simp [resolvedPages]
  | cons t rest ih =>
    rcases hlk : lookupBm bms t with _ | bm
    · simp only [resolvedPages, List.filterMap_cons, List.findSome?_cons, hlk]
      simpa [resolvedPages] using ih
    · simp [resolvedPages, List.filterMap_cons, List.findSome?_cons, hlk]

theorem gcpr_nil_of_unresolved (bms : List Bookmark) (total : Int) :
    ∀ titles, resolvedPages bms titles = [] → gcprGo bms total titles = [] := by
  intro titles
  induction titles with
  | nil => intro _; simp [gcprGo]
  | cons t rest ih =>
    intro h
    rcases hlk : lookupBm bms t with _ | bm
    · simp only [resolvedPages, List.filterMap_cons, hlk] at h
      simp only [gcprGo, hlk]
      exact ih (by simpa [resolvedPages] using h)
    · simp [resolvedPages, List.filterMap_cons, hlk] at h

theorem gcpr_start_lb (bms : List Bookmark) (total : Int) :
    ∀ titles, (resolvedPages bms titles).Chain' (fun a b => a < b) →
      ∀ r ∈ gcprGo bms total titles, ∀ p, (resolvedPages bms titles).head? = some p →
        p ≤ r.start_page := by
  intro titles
  induction titles with
  | nil => intro _ r hr; simp [gcprGo] at hr
  | cons t rest ih =>
    intro hc r hr p hp
    rcases hlk : lookupBm bms t with _ | bm
    · have heq : resolvedPages bms (t :: rest) = resolvedPages bms rest := by
        simp [resolvedPages, List.filterMap_cons, hlk]
      rw [heq] at hc hp
      simp only [gcprGo, hlk] at hr
      exact ih hc r hr p hp
    · have heq : resolvedPages bms (t :: rest) = bm.page :: resolvedPages bms rest := by
        simp [resolvedPages, List.filterMap_cons, hlk]
      rw [heq] at hc hp
      simp only [List.head?_cons, Option.some.injEq] at hp
      subst hp
      simp only [gcprGo, hlk, List.mem_append] at hr
      rcases hr with hr | hr
      · split at hr
        · simp only [List.mem_singleton] at hr; subst hr; simp
        · simp at hr
      · rcases hq : (resolvedPages bms rest).head? with _ | q
        · have hnil : resolvedPages bms rest = [] := by
            cases hrp : resolvedPages bms rest with
            | nil => rfl
            | cons a l => rw [hrp] at hq; simp at hq
          rw [gcpr_nil_of_unresolved bms total rest hnil] at hr
          simp at hr
        · have hq2 := ih hc.tail r hr q hq
          have hlt : bm.page < q := (List.chain'_cons'.mp hc).1 q hq
          omega

theorem gcpr_pairwise (bms : List Bookmark) (total : Int) :
    ∀ titles, (resolvedPages bms titles).Chain' (fun a b => a < b) →
      (gcprGo bms total titles).Pairwise (fun a b => a.end_page < b.start_page) := by
  intro titles
  induction titles with
  | nil => intro _; simp [gcprGo]
  | cons t rest ih =>
    intro hc
    rcases hlk : lookupBm bms t with _ | bm
    · have heq : resolvedPages bms (t :: rest) = resolvedPages bms rest := by
        simp [resolvedPages, List.filterMap_cons, hlk]
      rw [heq] at hc
      simp only [gcprGo, hlk]
      exact ih hc
    · have heq : resolvedPages bms (t :: rest) = bm.page :: resolvedPages bms rest := by
        simp [resolvedPages, List.filterMap_cons, hlk]
      rw [heq] at hc
      simp only [gcprGo, hlk]
      rw [List.pairwise_append]
      refine ⟨?_, ih hc.tail, ?_⟩
      · split
        · simp
        · simp
      · intro a ha b hb
        split at ha
        · simp only [List.mem_singleton] at ha
          subst ha
          rcases hq : (resolvedPages bms rest).head? with _ | q
          · have hnil : resolvedPages bms rest = [] := by
              cases hrp : resolvedPages bms rest with
              | nil => rfl
              | cons x l => rw [hrp] at hq; simp at hq
            rw [gcpr_nil_of_unresolved bms total rest hnil] at hb
            simp at hb
          · have hlbb := gcpr_start_lb bms total rest hc.tail b hb q hq
            have hend : (rest.findSome? (fun nt => (lookupBm bms nt).map (fun b => b.page - 1)))
                = some (q - 1) := by
              rw [findSome_end_eq bms rest, hq]; rfl
            simp only [hend, Option.getD_some]
            omega
        · simp at ha

theorem gcpr_titles_sublist (bms : List Bookmark) (total : Int) :
    ∀ titles, ((gcprGo bms total titles).map (fun r => r.title)).Sublist titles := by
  intro titles
  induction titles with
  | nil => simp [gcprGo]
  | cons t rest ih =>
    rcases hlk : lookupBm bms t with _ | bm
    · simp only [gcprGo, hlk]
      exact ih.cons t
    · simp only [gcprGo, hlk, List.map_append]
      split
      · simpa using List.Sublist.cons_cons t ih
      · simpa using List.Sublist.cons t ih

/-- C5: when the input is presented in chapter order (strictly increasing
`toc_page` for the TOC path, strictly increasing resolved bookmark pages for the
bookmark path), each builder emits ranges that preserve the input order
(output titles form a sublist of the input titles), have no two overlapping
ranges (every earlier range ends strictly before every later one starts), and
are ordered by strictly increasing `start_page`. -/
theorem c5_order_preserved :
    (∀ (offset total : Int) (toc : List TocEntry),
      toc.Chain' (fun a b => a.toc_page < b.toc_page) →
      (convert_toc_to_chapter_ranges offset total toc).Pairwise
          (fun a b => a.end_page < b.start_page) ∧
      (convert_toc_to_chapter_ranges offset total toc).Pairwise
          (fun a b => a.start_page < b.start_page) ∧
      ((convert_toc_to_chapter_ranges offset total toc).map (fun r => r.title)).Sublist
          (toc.map (fun e => e.title))) ∧
    (∀ (bms : List Bookmark) (titles : List (List Char)) (total : Int),
      (resolvedPages bms titles).Chain' (fun a b => a < b) →
      (get_chapter_page_ranges bms titles total).Pairwise
          (fun a b => a.end_page < b.start_page) ∧
      (get_chapter_page_ranges bms titles total).Pairwise
          (fun a b => a.start_page < b.start_page) ∧
      ((get_chapter_page_ranges bms titles total).map (fun r => r.title)).Sublist titles) := by
  constructor
  · intro offset total toc hch
    have hpw := convert_pairwise offset total toc hch
    refine ⟨hpw, ?_, convert_titles_sublist offset total toc⟩
    refine hpw.imp_of_mem (fun ha _ hab => ?_)
    have := convert_mem_valid offset total toc _ ha
    omega
  · intro bms titles total hch
    have hpw := gcpr_pairwise bms total titles hch
    refine ⟨hpw, ?_, gcpr_titles_sublist bms total titles⟩
    refine hpw.imp_of_mem (fun ha _ hab => ?_)
    have := gcpr_mem_se bms total titles _ ha
    omega

/-- C5 witness: the order/overlap invariants at the two concrete example
inputs of the spec. -/
theorem c5_witness :
    (convert_toc_to_chapter_ranges 16 60 [⟨cs "1 Intro", 1⟩, ⟨cs "2 Methods", 20⟩]).Pairwise
        (fun a b => a.end_page < b.start_page) ∧
    (get_chapter_page_ranges [⟨1, cs "A", 1⟩, ⟨1, cs "B", 10⟩] [cs "A", cs "B"] 20).Pairwise
        (fun a b => a.end_page < b.start_page) :=
  ⟨(c5_order_preserved.1 16 60 [⟨cs "1 Intro", 1⟩, ⟨cs "2 Methods", 20⟩]
      (by rw [List.chain'_cons]; exact ⟨by decide, List.chain'_singleton _⟩)).1,
   (c5_order_preserved.2 [⟨1, cs "A", 1⟩, ⟨1, cs "B", 10⟩] [cs "A", cs "B"] 20
      (by
        have h : resolvedPages [⟨1, cs "A", 1⟩, ⟨1, cs "B", 10⟩] [cs "A", cs "B"] = [1, 10] := by
          decide
        rw [h, List.chain'_cons]
        exact ⟨by decide, List.chain'_singleton _⟩)).1⟩

theorem bestOf_le (l : List Int) :
    ∀ (ks : List Int) (b : Int),
      countIn l b ≤ countIn l (bestOf l b ks) ∧
      ∀ k ∈ ks, countIn l k ≤ countIn l (bestOf l b ks) := by
  intro ks
  induction ks with
  | nil => intro b; exact ⟨le_refl _, by simp⟩
  | cons k ks ih =>
    intro b
    simp only [bestOf]
    by_cases h : countIn l k > countIn l b
    · rw [if_pos h]
      refine ⟨le_trans (le_of_lt h) (ih k).1, ?_⟩
      intro k2 hk2
      rcases List.mem_cons.mp hk2 with rfl | hk2
      · exact (ih k2).1
      · exact (ih k).2 k2 hk2
    · rw [if_neg h]
      refine ⟨(ih b).1, ?_⟩
      intro k2 hk2
      rcases List.mem_cons.mp hk2 with rfl | hk2
      · exact le_trans (le_of_not_lt h) (ih b).1
      · exact (ih b).2 k2 hk2

theorem bestOf_find? (l : List Int) :
    ∀ (ks : List Int) (b : Int),
      (b :: ks).find? (fun x => decide (countIn l x = countIn l (bestOf l b ks))) =
        some (bestOf l b ks) := by
  intro ks
  induction ks with
  | nil =>
    intro b
    simp [bestOf, List.find?_cons_of_pos]
  | cons k ks ih =>
    intro b
    by_cases h : countIn l k > countIn l b
    · have hb : bestOf l b (k :: ks) = bestOf l k ks := by
        simp [bestOf, if_pos h]
      rw [hb]
      have hlt : countIn l b < countIn l (bestOf l k ks) :=
        lt_of_lt_of_le h (bestOf_le l ks k).1
      rw [List.find?_cons_of_neg]
      · exact ih k
      · simp [Nat.ne_of_lt hlt]
    · have hb : bestOf l b (k :: ks) = bestOf l b ks := by
        simp [bestOf, if_neg h]
      rw [hb]
      by_cases hbr : countIn l b = countIn l (bestOf l b ks)
      · have hib := ih b
        rw [List.find?_cons_of_pos _ (by simp [hbr])] at hib
        rw [List.find?_cons_of_pos _ (by simp [hbr])]
        exact hib
      · have hkr : ¬ countIn l k = countIn l (bestOf l b ks) := by
          have h1 : countIn l b ≤ countIn l (bestOf l b ks) := (bestOf_le l ks b).1
          omega
        have hib := ih b
        rw [List.find?_cons_of_neg _ (by simpa using hbr)] at hib
        rw [List.find?_cons_of_neg _ (by simpa using hbr),
            List.find?_cons_of_neg _ (by simpa using hkr)]
        exact hib

theorem find?_filter_eq (p q : Int → Bool) (h : ∀ y, q y = false → p y = false) :
    ∀ m : List Int, (m.filter q).find? p = m.find? p := by
  intro m
  induction m with
  | nil => simp
  | cons c ms ih =>
    by_cases hq : q c
    · rw [List.filter_cons_of_pos hq]
      by_cases hp : p c
      · rw [List.find?_cons_of_pos _ hp, List.find?_cons_of_pos _ hp]
      · rw [List.find?_cons_of_neg _ hp, List.find?_cons_of_neg _ hp]
        exact ih
    · have hp := h c (by simpa using hq)
      rw [List.filter_cons_of_neg hq, ih, List.find?_cons_of_neg _ (by simp [hp])]

theorem firstKeysAux_find? (p : Int → Bool) :
    ∀ (f : Nat) (m : List Int), m.length ≤ f →
      (firstKeysAux f m).find? p = m.find? p := by
  intro f
  induction f with
  | zero =>
    intro m hm
    have hnil : m = [] := List.eq_nil_of_length_eq_zero (Nat.le_zero.mp hm)
    subst hnil
    simp [firstKeysAux]
  | succ f ih =>
    intro m hm
    cases m with
    | nil => simp [firstKeysAux]
    | cons x xs =>
      simp only [firstKeysAux]
      by_cases hp : p x
      · rw [List.find?_cons_of_pos _ hp, List.find?_cons_of_pos _ hp]
      · rw [List.find?_cons_of_neg _ hp, List.find?_cons_of_neg _ hp]
        have hlen : (xs.filter (fun y => y ≠ x)).length ≤ f := by
          have h1 := List.length_filter_le (fun y => decide (y ≠ x)) xs
          have h2 : xs.length + 1 ≤ f + 1 := by simpa using hm
          omega
        rw [ih _ hlen]
        exact find?_filter_eq p _ (fun y hy => by
          have : y = x := by simpa using hy
          subst this
          simpa using hp) xs

theorem mem_firstKeysAux :
    ∀ (f : Nat) (m : List Int), m.length ≤ f → ∀ x ∈ m, x ∈ firstKeysAux f m := by
  intro f
  induction f with
  | zero =>
    intro m hm
    have hnil : m = [] := List.eq_nil_of_length_eq_zero (Nat.le_zero.mp hm)
    subst hnil
    intro x hx
    simp at hx
  | succ f ih =>
    intro m hm x hx
    cases m with
    | nil => simp at hx
    | cons y ys =>
      simp only [firstKeysAux]
      rcases List.mem_cons.mp hx with rfl | hx
      · exact List.mem_cons_self _ _
      · by_cases hxy : x = y
        · subst hxy; exact List.mem_cons_self _ _
        · have hlen : (ys.filter (fun z => z ≠ y)).length ≤ f := by
            have h1 := List.length_filter_le (fun z => decide (z ≠ y)) ys
            have h2 : ys.length + 1 ≤ f + 1 := by simpa using hm
            omega
          have hxin : x ∈ ys.filter (fun z => z ≠ y) :=
            List.mem_filter.mpr ⟨hx, by simpa using hxy⟩
          exact List.mem_cons_of_mem _ (ih _ hlen x hxin)

theorem pyMode_spec (l : List Int) (hl : l ≠ []) :
    (∀ x ∈ l, countIn l x ≤ countIn l (pyMode l)) ∧
    l.find? (fun x => decide (countIn l x = countIn l (pyMode l))) = some (pyMode l) := by
  obtain ⟨x, xs, rfl⟩ := List.exists_cons_of_ne_nil hl
  have hfk : firstKeysAux (x :: xs).length (x :: xs) =
      x :: firstKeysAux xs.length (xs.filter (fun y => y ≠ x)) := rfl
  have hmode : pyMode (x :: xs) =
      bestOf (x :: xs) x (firstKeysAux xs.length (xs.filter (fun y => y ≠ x))) := by
    unfold pyMode firstKeys
    rw [hfk]
  constructor
  · intro z hz
    have hzk : z ∈ firstKeysAux (x :: xs).length (x :: xs) :=
      mem_firstKeysAux _ _ (le_refl _) z hz
    rw [hfk] at hzk
    rw [hmode]
    rcases List.mem_cons.mp hzk with rfl | hzk
    · exact (bestOf_le _ _ z).1
    · exact (bestOf_le _ _ x).2 z hzk
  · rw [hmode]
    rw [← firstKeysAux_find? _ (x :: xs).length (x :: xs) (le_refl _)]
    rw [hfk]
    exact bestOf_find? (x :: xs) (firstKeysAux xs.length (xs.filter (fun y => y ≠ x))) x

/-- C2 (amended): whenever the TOC entry list is non-empty, `calculate_page_offset`
returns the statistical mode of the offsets recorded over the first 5 entries
(the most frequent value; on ties the first value found in the offsets list) when
at least one offset was recorded, and the fixed fallback 16 when none was; the
amendment: for an empty TOC entry list it returns 0, not 16. -/
theorem c2_offset_mode (pages : List (List Char)) (toc : List TocEntry) (hne : toc ≠ []) :
    (offsetsFound pages toc = [] → calculate_page_offset pages toc = 16) ∧
    (offsetsFound pages toc ≠ [] →
      calculate_page_offset pages toc = pyMode (offsetsFound pages toc) ∧
      (∀ x ∈ offsetsFound pages toc,
        countIn (offsetsFound pages toc) x ≤
          countIn (offsetsFound pages toc) (pyMode (offsetsFound pages toc))) ∧
      (offsetsFound pages toc).find?
          (fun x => decide (countIn (offsetsFound pages toc) x =
            countIn (offsetsFound pages toc) (pyMode (offsetsFound pages toc)))) =
        some (pyMode (offsetsFound pages toc))) := by
  constructor
  · intro h0
    simp [calculate_page_offset, hne, h0]
  · intro h0
    have hm := pyMode_spec (offsetsFound pages toc) h0
    exact ⟨by simp [calculate_page_offset, hne, h0], hm.1, hm.2⟩

/-- C2 counterexample: on an empty TOC entry list `calculate_page_offset`
returns 0, not the claimed fallback 16. -/
theorem c2_counterexample :
    calculate_page_offset [] [] = 0 ∧ ((0 : Int) = 16 → False) := by decide

/-- C2 witness: the fallback and the mode branch at concrete inputs. -/
theorem c2_witness :
    calculate_page_offset [] [⟨cs "1 Intro", 1⟩] = 16 ∧
    calculate_page_offset
        [[], [], [], [], [], [], [], [], [], cs "1 Introduction"] [⟨cs "1 Intro", 1⟩] =
      pyMode (offsetsFound
        [[], [], [], [], [], [], [], [], [], cs "1 Introduction"] [⟨cs "1 Intro", 1⟩]) :=
  ⟨(c2_offset_mode [] [⟨cs "1 Intro", 1⟩] (by decide)).1 (by decide),
   ((c2_offset_mode [[], [], [], [], [], [], [], [], [], cs "1 Introduction"]
      [⟨cs "1 Intro", 1⟩] (by decide)).2 (by decide)).1⟩

theorem tocGo_over15 (pages : List (List Char)) :
    ∀ (idxs : List Nat) (st : Option Nat) (acc : List (List Char)),
      (∀ e ∈ acc.drop 15, ∃ i, e = mkPageEntry i (pages.getD i []) ∧
          isTocPage (pages.getD i []) = true) →
      ∀ e ∈ ((tocGo pages idxs st acc).1).drop 15,
        ∃ i, e = mkPageEntry i (pages.getD i []) ∧ isTocPage (pages.getD i []) = true := by
  intro idxs
  induction idxs with
  | nil => intro st acc hacc e he; exact hacc e he
  | cons i rest ih =>
    intro st acc hacc e he
    simp only [tocGo] at he
    split at he
    case isTrue htoc =>
      refine ih _ _ ?_ e he
      intro e2 he2
      rw [List.drop_append_eq_append_drop] at he2
      rcases List.mem_append.mp he2 with h2 | h2
      · exact hacc e2 h2
      · have h3 : e2 ∈ [mkPageEntry i (pages.getD i [])] := List.drop_subset _ _ h2
        simp only [List.mem_singleton] at h3
        exact ⟨i, h3, htoc⟩
    case isFalse htoc =>
      split at he
      · exact ih _ _ hacc e he
      · split at he
        case isTrue hcont =>
          split at he
          case isTrue h15 =>
            refine ih _ _ ?_ e he
            intro e2 he2
            have h15n : acc.length < 15 := by simpa using h15
            have hlen : (acc ++ [mkPageEntry i (pages.getD i [])]).length ≤ 15 := by
              simp only [List.length_append, List.length_singleton]
              omega
            rw [List.drop_eq_nil_of_le hlen] at he2
            simp at he2
          case isFalse h15 => exact hacc e he
        case isFalse hcont => exact hacc e he

/-- C3 (amended): every page entry collected by `extract_toc_text` beyond the
first 15 comes from a page satisfying the full TOC classification; the
continuation branch never appends once 15 pages are collected.  The amendment:
pages that satisfy the full classification (`has_contents_header` or the
heuristic) are still appended without any cap, so the overall collection is not
bounded by 15. -/
theorem c3_cap_continuation (pages : List (List Char)) (max_pages : Nat) :
    ∀ e ∈ (collectedEntries pages max_pages).drop 15,
      ∃ i, e = mkPageEntry i (pages.getD i []) ∧ isTocPage (pages.getD i []) = true := by
  intro e he
  exact tocGo_over15 pages _ none [] (by simp) e he

/-- C3 counterexample: sixteen pages all containing `contents` are all
collected, so `extract_toc_text` does not cap the collected pages at 15. -/
theorem c3_counterexample :
    (collectedEntries (List.replicate 16 (cs "contents")) 20).length = 16 ∧ ¬ (16 ≤ 15) := by
  decide

/-- C3 witness: the 16th collected entry of the counterexample input does come
from a page satisfying the full TOC classification. -/
theorem c3_witness :
    ∃ i, mkPageEntry 15 (cs "contents") =
        mkPageEntry i ((List.replicate 16 (cs "contents")).getD i []) ∧
      isTocPage ((List.replicate 16 (cs "contents")).getD i []) = true :=
  c3_cap_continuation (List.replicate 16 (cs "contents")) 20 (mkPageEntry 15 (cs "contents"))
    (by decide)

/-- C6: a page within the scan limit is classified as TOC content exactly when
it contains a `contents` or `table of contents` substring (case-insensitive), or
its section-number count is at least 3 together with at least 5 page-number
tokens, or its keyword count is at least 2 together with at least 5 page-number
tokens, or its section-number count alone is at least 5; in particular a page
containing `Table of Contents` is classified as TOC start, and a page with 6
section-number matches and no keywords or page-number tokens is classified as
TOC. -/
theorem c6_toc_classification :
    (∀ text : List Char, isTocPage text = true ↔
      (lContains (lowerL text) (cs "contents") = true ∨
       lContains (lowerL text) (cs "table of contents") = true ∨
       (3 ≤ sectionCount text ∧ 5 ≤ pageNumCount text) ∨
       (2 ≤ keywordCount (lowerL text) ∧ 5 ≤ pageNumCount text) ∨
       5 ≤ sectionCount text)) ∧
    (isTocPage (cs "Table of Contents") = true ∧
      (extract_toc_text [cs "Table of Contents"] 20).2 = 1) ∧
    (isTocPage (cs "1.1 1.2 2.1 2.2 3.1 3.2") = true ∧
      sectionCount (cs "1.1 1.2 2.1 2.2 3.1 3.2") = 6 ∧
      keywordCount (lowerL (cs "1.1 1.2 2.1 2.2 3.1 3.2")) = 0 ∧
      pageNumCount (cs "1.1 1.2 2.1 2.2 3.1 3.2") = 0) := by
  refine ⟨?_, by decide, by decide⟩
  intro text
  simp only [isTocPage, hasContentsHeader, hasTocPattern, Bool.or_eq_true, Bool.and_eq_true,
    decide_eq_true_eq]
  tauto

/-- C6 witness: the classification applied to a concrete page containing a
`TABLE OF CONTENTS` header. -/
theorem c6_witness :
    isTocPage (cs "TABLE OF CONTENTS for this book") = true :=
  (c6_toc_classification.1 (cs "TABLE OF CONTENTS for this book")).mpr (Or.inl (by decide))

theorem fcspGo_eq (pq : Nat → Bool) :
    ∀ idxs : List Nat, fcspGo pq idxs = (idxs.find? pq).map (fun i => i + 1) := by
  intro idxs
  induction idxs with
  | nil => simp [fcspGo]
  | cons i rest ih =>
    by_cases h : pq i
    · simp [fcspGo, h, List.find?_cons_of_pos _ h]
    · simp only [fcspGo, h, if_false, Bool.false_eq_true, ih,
        List.find?_cons_of_neg _ (by simpa using h)]

/-- C7 (amended): for a chapter title with a leading number, the chapter locator
returns the first physical page (1-indexed) of the search window whose page
qualifies under one of the three detectors, and `none` when the window is
exhausted; a page whose first line (after stripping) is exactly the leading
number qualifies under the numeric-heading detector provided its inspected
block has at least two lines.  The amendment: the source requires
`len(lines) >= 2`, so a single-line page whose only line is the number does not
qualify. -/
theorem c7_chapter_locator (pages : List (List Char)) (chapter_title : List Char)
    (rstart rend : Nat) (num : List Char) (hnum : leadingNum chapter_title = some num) :
    (find_chapter_start_page pages chapter_title rstart rend =
      (((List.range (min rend pages.length)).drop (rstart - 1)).find?
          (fun i => pageQualifies chapter_title (pages.getD i []))).map (fun i => i + 1)) ∧
    (∀ text : List Char,
      2 ≤ (splitNl (fbOf800 text)).length →
      pyStrip ((splitNl (fbOf800 text)).headD []) = num →
      pageQualifies chapter_title text = true) := by
  constructor
  · exact fcspGo_eq _ _
  · intro text h2 hline
    simp only [pageQualifies, hnum, Bool.or_eq_true, Bool.and_eq_true, decide_eq_true_eq]
    exact Or.inl (Or.inl (Or.inr ⟨h2, Or.inr hline⟩))

/-- C7 counterexample: a page whose whole text is the single line `5` is not
found for the chapter title `5 Widgets` (the first line is exactly the leading
number, but the source requires at least two lines in the block). -/
theorem c7_counterexample :
    find_chapter_start_page [cs "5"] (cs "5 Widgets") 1 5 = none ∧
    pyStrip ((splitNl (fbOf800 (cs "5"))).headD []) = cs "5" ∧
    leadingNum (cs "5 Widgets") = some (cs "5") := by
  decide

/-- C7 witness: the amended locator contract at a concrete two-line page. -/
theorem c7_witness :
    find_chapter_start_page [cs "5\nWidgets are fun"] (cs "5 Widgets") 1 5 = some 1 ∧
    pageQualifies (cs "5 Widgets") (cs "5\nWidgets are fun") = true :=
  ⟨((c7_chapter_locator [cs "5\nWidgets are fun"] (cs "5 Widgets") 1 5 (cs "5")
      (by decide)).1).trans (by decide),
   (c7_chapter_locator [cs "5\nWidgets are fun"] (cs "5 Widgets") 1 5 (cs "5")
      (by decide)).2 (cs "5\nWidgets are fun") (by decide) (by decide)⟩

theorem collapseAux_space :
    ∀ (l : List Char) (b : Bool), ∀ c ∈ collapseAux b l, pyIsSpace c = true → c = ' ' := by
  intro l
  induction l with
  | nil => intro b c hc; simp [collapseAux] at hc
  | cons d ds ih =>
    intro b c hc hws
    simp only [collapseAux] at hc
    by_cases hd : pyIsSpace d
    · rw [if_pos hd] at hc
      by_cases hb : b
      · subst hb; exact ih true c hc hws
      · simp only [hb, if_false] at hc
        rcases List.mem_cons.mp hc with rfl | hc
        · rfl
        · exact ih true c hc hws
    · rw [if_neg hd] at hc
      rcases List.mem_cons.mp hc with rfl | hc
      · exact absurd hws (by simpa using hd)
      · exact ih false c hc hws

theorem collapseAux_mem :
    ∀ (l : List Char) (b : Bool), ∀ c ∈ collapseAux b l, c = ' ' ∨ c ∈ l := by
  intro l
  induction l with
  | nil => intro b c hc; simp [collapseAux] at hc
  | cons d ds ih =>
    intro b c hc
    simp only [collapseAux] at hc
    by_cases hd : pyIsSpace d
    · rw [if_pos hd] at hc
      by_cases hb : b
      · subst hb
        rcases ih true c hc with h | h
        · exact Or.inl h
        · exact Or.inr (List.mem_cons_of_mem d h)
      · simp only [hb, if_false] at hc
        rcases List.mem_cons.mp hc with rfl | hc
        · exact Or.inl rfl
        · rcases ih true c hc with h | h
          · exact Or.inl h
          · exact Or.inr (List.mem_cons_of_mem d h)
    · rw [if_neg hd] at hc
      rcases List.mem_cons.mp hc with rfl | hc
      · exact Or.inr (List.mem_cons_self c ds)
      · rcases ih false c hc with h | h
        · exact Or.inl h
        · exact Or.inr (List.mem_cons_of_mem d h)

theorem collapseAux_true_head :
    ∀ (l : List Char) (c : Char) (cst : List Char),
      collapseAux true l = c :: cst → pyIsSpace c = false := by
  intro l
  induction l with
  | nil => intro c cst hc; simp [collapseAux] at hc
  | cons d ds ih =>
    intro c cst hc
    simp only [collapseAux] at hc
    by_cases hd : pyIsSpace d
    · rw [if_pos hd] at hc
      have hc2 : collapseAux true ds = c :: cst := by simpa using hc
      exact ih c cst hc2
    · rw [if_neg hd] at hc
      obtain ⟨rfl, -⟩ := List.cons.inj hc
      simpa using hd

theorem collapseAux_chain :
    ∀ (l : List Char) (b : Bool),
      (collapseAux b l).Chain'
        (fun a c => ¬(pyIsSpace a = true ∧ pyIsSpace c = true)) := by
  intro l
  induction l with
  | nil => intro b; simp [collapseAux]
  | cons d ds ih =>
    intro b
    simp only [collapseAux]
    by_cases hd : pyIsSpace d
    · rw [if_pos hd]
      by_cases hb : b
      · subst hb; exact ih true
      · have hb' : b = false := by simpa using hb
        subst hb'
        rw [if_neg (by simp)]
        rw [List.chain'_cons']
        refine ⟨?_, ih true⟩
        intro y hy
        cases hk : collapseAux true ds with
        | nil => rw [hk] at hy; simp at hy
        | cons k ks =>
          rw [hk] at hy
          simp only [List.head?_cons, Option.mem_def, Option.some.injEq] at hy
          subst hy
          have := collapseAux_true_head ds k ks hk
          intro hand
          rw [this] at hand
          exact absurd hand.2 (by simp)
    · rw [if_neg hd]
      rw [List.chain'_cons']
      refine ⟨?_, ih false⟩
      intro y _
      intro hand
      rw [show pyIsSpace d = false from by simpa using hd] at hand
      exact absurd hand.1 (by simp)

theorem collapseAux_id :
    ∀ l : List Char,
      l.Chain' (fun a c => ¬(pyIsSpace a = true ∧ pyIsSpace c = true)) →
      (∀ c ∈ l, pyIsSpace c = true → c = ' ') →
      collapseAux false l = l ∧
      ((∀ c cst, l = c :: cst → pyIsSpace c = false) → collapseAux true l = l) := by
  intro l
  induction l with
  | nil => intro _ _; exact ⟨rfl, fun _ => rfl⟩
  | cons d ds ih =>
    intro hch hsp
    have hpair := List.chain'_cons'.mp hch
    have ihd := ih hpair.2 (fun c hc => hsp c (List.mem_cons_of_mem d hc))
    constructor
    · by_cases hd : pyIsSpace d
      · have hd' : d = ' ' := hsp d (List.mem_cons_self d ds) hd
        simp only [collapseAux, if_pos hd, if_neg (by simp : ¬ (false = true))]
        rw [hd']
        congr 1
        apply ihd.2
        intro c cst hds
        have hy := hpair.1 c (by rw [hds]; rfl)
        by_contra hcon
        exact hy ⟨hd, by simpa using hcon⟩
      · simp only [collapseAux, if_neg hd]
        rw [ihd.1]
    · intro hhead
      have hd : pyIsSpace d = false := hhead d ds rfl
      simp only [collapseAux, hd, if_neg (by simp : ¬ (false = true))]
      rw [ihd.1]

theorem dropWhile_chain_pres {R : Char → Char → Prop} (p : Char → Bool) :
    ∀ l : List Char, l.Chain' R → (l.dropWhile p).Chain' R := by
  intro l
  induction l with
  | nil => intro h; simp
  | cons c cst ih =>
    intro h
    by_cases hc : p c
    · rw [List.dropWhile_cons_of_pos hc]
      exact ih (List.chain'_cons'.mp h).2
    · rw [List.dropWhile_cons_of_neg hc]
      exact h

theorem chain_reverse_pres :
    ∀ l : List Char,
      l.Chain' (fun a c => ¬(pyIsSpace a = true ∧ pyIsSpace c = true)) →
      l.reverse.Chain' (fun a c => ¬(pyIsSpace a = true ∧ pyIsSpace c = true)) := by
  intro l h
  rw [List.chain'_reverse]
  exact h.imp (fun a c hac => fun hand => hac ⟨hand.2, hand.1⟩)

theorem dropWhile_head_false (p : Char → Bool) :
    ∀ (l : List Char) (c : Char) (cst : List Char),
      l.dropWhile p = c :: cst → p c = false := by
  intro l
  induction l with
  | nil => intro c cst h; simp at h
  | cons d ds ih =>
    intro c cst h
    by_cases hd : p d
    · rw [List.dropWhile_cons_of_pos hd] at h
      exact ih c cst h
    · rw [List.dropWhile_cons_of_neg hd] at h
      obtain ⟨rfl, -⟩ := List.cons.inj h
      simpa using hd

theorem dropWhile_suffix_decomp (p : Char → Bool) :
    ∀ l : List Char, ∃ s, l = s ++ l.dropWhile p := by
  intro l
  induction l with
  | nil => exact ⟨[], rfl⟩
  | cons c cst ih =>
    by_cases hc : p c
    · obtain ⟨s, hs⟩ := ih
      refine ⟨c :: s, ?_⟩
      rw [List.dropWhile_cons_of_pos hc, List.cons_append, ← hs]
    · exact ⟨[], by rw [List.dropWhile_cons_of_neg hc]; rfl⟩

theorem rstripL_front (m : List Char) : ∃ t, m = rstripL m ++ t := by
  obtain ⟨s, hs⟩ := dropWhile_suffix_decomp pyIsSpace m.reverse
  refine ⟨s.reverse, ?_⟩
  conv_lhs => rw [← List.reverse_reverse m, hs]
  rw [List.reverse_append]
  rfl

theorem headNS_rstrip (m : List Char)
    (h : ∀ c cst, m = c :: cst → pyIsSpace c = false) :
    ∀ c cst, rstripL m = c :: cst → pyIsSpace c = false := by
  intro c cst hr
  obtain ⟨t, ht⟩ := rstripL_front m
  rw [hr] at ht
  exact h c (cst ++ t) (by simpa using ht)

theorem headNS_take (m : List Char) (n : Nat)
    (h : ∀ c cst, m = c :: cst → pyIsSpace c = false) :
    ∀ c cst, m.take n = c :: cst → pyIsSpace c = false := by
  intro c cst ht
  cases m with
  | nil => simp at ht
  | cons d ds =>
    cases n with
    | zero => simp at ht
    | succ n =>
      rw [List.take_succ_cons] at ht
      obtain ⟨rfl, -⟩ := List.cons.inj ht
      exact h _ ds rfl

theorem dropWhile_id (p : Char → Bool) (l : List Char)
    (h : ∀ c cst, l = c :: cst → p c = false) : l.dropWhile p = l := by
  cases l with
  | nil => rfl
  | cons c cst => exact List.dropWhile_cons_of_neg (by simp [h c cst rfl])

theorem rstripL_id (m : List Char)
    (h : ∀ c, m.getLast? = some c → pyIsSpace c = false) : rstripL m = m := by
  have hdw : m.reverse.dropWhile pyIsSpace = m.reverse := by
    apply dropWhile_id
    intro c cst hc
    apply h
    rw [← List.head?_reverse, hc]
    rfl
  unfold rstripL
  rw [hdw, List.reverse_reverse]

theorem sanitize_wellformed (s : List Char) :
    ((sanitize_filename s).Chain' (fun a c => ¬(pyIsSpace a = true ∧ pyIsSpace c = true))) ∧
    (∀ c ∈ sanitize_filename s, pyIsSpace c = true → c = ' ') ∧
    (∀ c ∈ sanitize_filename s, invalidChar c = false) ∧
    (∀ c cst, sanitize_filename s = c :: cst → pyIsSpace c = false) ∧
    (sanitize_filename s).length ≤ 100 := by
  have hwch := collapseAux_chain (s.filter (fun d => !invalidChar d)) false
  have hxch := dropWhile_chain_pres pyIsSpace _ hwch
  have hych :=
    chain_reverse_pres _ (dropWhile_chain_pres pyIsSpace _ (chain_reverse_pres _ hxch))
  have hzmem : ∀ c ∈ sanitize_filename s,
      c ∈ collapseWs (s.filter (fun d => !invalidChar d)) := by
    intro c hc
    unfold sanitize_filename truncate100 at hc
    have hy : c ∈ pyStrip (collapseWs (s.filter (fun d => !invalidChar d))) := by
      split at hc
      · exact List.take_subset _ _ hc
      · exact hc
    unfold pyStrip rstripL lstripL at hy
    have h1 := List.mem_reverse.mp hy
    have h2 := (List.dropWhile_sublist _).subset h1
    have h3 := List.mem_reverse.mp h2
    exact (List.dropWhile_sublist _).subset h3
  refine ⟨?_, ?_, ?_, ?_, ?_⟩
  · unfold sanitize_filename truncate100
    split
    · exact List.Chain'.take hych 100
    · exact hych
  · intro c hc hws
    exact collapseAux_space _ false c (hzmem c hc) hws
  · intro c hc
    rcases collapseAux_mem _ false c (hzmem c hc) with h | h
    · subst h; rfl
    · have := (List.mem_filter.mp h).2
      simpa using this
  · have hxhead := dropWhile_head_false pyIsSpace
      (collapseWs (s.filter (fun d => !invalidChar d)))
    have hyhead := headNS_rstrip (lstripL (collapseWs (s.filter (fun d => !invalidChar d))))
      hxhead
    intro c cst hc
    unfold sanitize_filename truncate100 at hc
    split at hc
    · exact headNS_take _ 100 hyhead c cst hc
    · exact hyhead c cst hc
  · unfold sanitize_filename truncate100
    split
    · rw [List.length_take]; exact min_le_left _ _
    · next hlt => omega

/-- C4 (amended): the sanitizer is idempotent on every input whose sanitized
form does not end in a whitespace character; the amendment excludes the single
failure mode in which the final 100-character truncation cuts right after a
space, which the second application's `strip` then removes. -/
theorem c4_sanitize_idem (s : List Char)
    (h : ∀ c, (sanitize_filename s).getLast? = some c → pyIsSpace c = false) :
    sanitize_filename (sanitize_filename s) = sanitize_filename s := by
  obtain ⟨hch, hsp, hinv, hhead, hlen⟩ := sanitize_wellformed s
  have h1 : (sanitize_filename s).filter (fun c => !invalidChar c) = sanitize_filename s :=
    List.filter_eq_self.mpr (fun a ha => by rw [hinv a ha]; rfl)
  have h2 : collapseWs (sanitize_filename s) = sanitize_filename s :=
    (collapseAux_id (sanitize_filename s) hch hsp).1
  have h3 : lstripL (sanitize_filename s) = sanitize_filename s :=
    dropWhile_id pyIsSpace _ hhead
  have h4 : rstripL (sanitize_filename s) = sanitize_filename s := rstripL_id _ h
  have h5 : truncate100 (sanitize_filename s) = sanitize_filename s := by
    unfold truncate100
    rw [if_neg (by omega)]
  show truncate100 (pyStrip (collapseWs
      ((sanitize_filename s).filter (fun c => !invalidChar c)))) = sanitize_filename s
  rw [h1, h2]
  show truncate100 (rstripL (lstripL (sanitize_filename s))) = sanitize_filename s
  rw [h3, h4, h5]

/-- C4 counterexample: for 99 `a`s followed by ` bb` the truncation leaves a
trailing space, which the second application strips, so sanitizing twice is not
the same as sanitizing once. -/
theorem c4_counterexample :
    sanitize_filename (sanitize_filename (List.replicate 99 'a' ++ cs " bb")) ≠
      sanitize_filename (List.replicate 99 'a' ++ cs " bb") := by
  decide

/-- C4 witness: idempotence at a concrete input whose sanitized form ends in a
non-space character. -/
theorem c4_witness :
    (∀ c, (sanitize_filename (cs "a  b<")).getLast? = some c → pyIsSpace c = false) ∧
    sanitize_filename (sanitize_filename (cs "a  b<")) = sanitize_filename (cs "a  b<") := by
  have hlast : (sanitize_filename (cs "a  b<")).getLast? = some 'b' := by decide
  have hcond : ∀ c, (sanitize_filename (cs "a  b<")).getLast? = some c →
      pyIsSpace c = false := by
    intro c hc
    rw [hlast] at hc
    injection hc with hbc
    subst hbc
    decide
  exact ⟨hcond, c4_sanitize_idem (cs "a  b<") hcond⟩

/-- C10: the sanitizer's output never exceeds 100 characters and contains none
of the nine filesystem-reserved characters it removes. -/
theorem c10_sanitize_postcondition (s : List Char) :
    (sanitize_filename s).length ≤ 100 ∧
    ∀ c ∈ sanitize_filename s, invalidChar c = false :=
  ⟨(sanitize_wellformed s).2.2.2.2, (sanitize_wellformed s).2.2.1⟩

/-- C10 witness: the postcondition at a concrete input. -/
theorem c10_witness :
    (sanitize_filename (cs "a<b?c*d")).length ≤ 100 ∧
    ¬ ('<' ∈ sanitize_filename (cs "a<b?c*d")) :=
  ⟨(c10_sanitize_postcondition (cs "a<b?c*d")).1,
   fun hm => absurd ((c10_sanitize_postcondition (cs "a<b?c*d")).2 '<' hm) (by decide)⟩
